import Mathlib

/-
Verification of the shader build system of dxvk-remix:
the Makefile-style depfile parser (scripts-common/depfile.py) and the
shader compilation driver (scripts-common/compile_shaders.py): task
staleness checks, command execution, the sequential scheduler, the
cooperative terminate flag, and the shader variant annotation parser.

File paths and modification times are modelled abstractly: a file system
is a function from path to an optional integer timestamp (none meaning
the file does not exist).  Strings are processed as lists of characters,
matching the character-by-character loops of the Python source.
-/

set_option maxHeartbeats 1000000

namespace Depfile

/-- A token of a depfile (a target or dependency path), as a character list. -/
abbrev Tok := List Char

/-- Scanner state of depfile.parse: the accumulated target tokens, dependency
tokens, whether the colon has been seen for the current rule, and the
partial token being accumulated. -/
structure PState where
  targets : List Tok
  deps : List Tok
  in_deps : Bool
  out : Tok
deriving DecidableEq, Repr

/-- Initial scanner state: everything empty, before the colon. -/
def initState : PState := ⟨[], [], false, []⟩

/-- Model of os.path.basename for forward-slash paths: the part of the
path after the last slash. -/
def basename (s : Tok) : Tok :=
  s.foldl (fun acc c => if c = '/' then [] else acc ++ [c]) []

/-- Whether some accumulated target has the same base name as the expected
target (the return condition of depfile.parse at end of rule). -/
def hasMatchingTarget (expected : Tok) (targets : List Tok) : Bool :=
  targets.any (fun t => basename t == basename expected)

/-- Flush the partial token into targets or deps, as done at an unescaped
space or newline: nothing happens when the partial token is empty. -/
def flush (st : PState) : PState :=
  if st.out.isEmpty then st
  else if st.in_deps then { st with deps := st.deps ++ [st.out], out := [] }
  else { st with targets := st.targets ++ [st.out], out := [] }

/-- Character loop of depfile.parse over one line.  Returns an early
result (the dependency list, when an unescaped newline ends a rule whose
targets match) or the escape flag and scanner state at the end of the
line.  Mirrors the Python loop: a pending backslash escape followed by a
newline skips the newline and keeps the escape; a pending dollar escape
followed by anything but a dollar emits a literal dollar first; an
unescaped colon always appends the partial token to the target list. -/
def stepLine (expected : Tok) : Option Char → PState → List Char → Except (List Tok) (Option Char × PState)
  | esc, st, [] => .ok (esc, st)
  | some e, st, c :: rest =>
    if e = '\\' ∧ c = '\n' then
      stepLine expected (some e) st rest
    else
      stepLine expected none
        { st with out := (if e = '$' ∧ c ≠ '$' then st.out ++ ['$'] else st.out) ++ [c] } rest
  | none, st, c :: rest =>
    if c = '\\' ∨ c = '$' then
      stepLine expected (some c) st rest
    else if c = ' ' ∨ c = '\n' then
      if c = '\n' then
        if hasMatchingTarget expected (flush st).targets then .error (flush st).deps
        else stepLine expected none initState rest
      else stepLine expected none (flush st) rest
    else if c = ':' then
      stepLine expected none { st with targets := st.targets ++ [st.out], out := [], in_deps := true } rest
    else
      stepLine expected none { st with out := st.out ++ [c] } rest

/-- Append a newline when the line does not already end with one
(the `if not line.endswith` normalization of depfile.parse). -/
def ensureNl (line : List Char) : List Char :=
  if line.getLast? = some '\n' then line else line ++ ['\n']

/-- Line loop of depfile.parse: scanner state carries over between lines,
the escape flag is reset at each line start, and an early result from a
line is the overall result.  Falling off the end returns the empty list. -/
def parseLines (expected : Tok) : PState → List (List Char) → List Tok
  | _, [] => []
  | st, line :: rest =>
    match stepLine expected none st (ensureNl line) with
    | .error deps => deps
    | .ok r => parseLines expected r.2 rest

/-- depfile.parse: given the lines of a depfile and the expected target,
return the dependency list of the first rule with a matching target. -/
def parse (lines : List String) (expectedTarget : String) : List String :=
  (parseLines expectedTarget.data initState (lines.map String.data)).map String.mk

/-- A depfile rule: its list of targets and its list of dependencies. -/
abbrev Rule := List Tok × List Tok

/-- Specification-level scanner (after the words of the spec): collect the
complete rules of a line, each rule being closed by an unescaped newline,
with the same token and escape conventions as the scanner, together with
the carried-over escape flag and state. -/
def collectLine : Option Char → PState → List Char → List Rule × (Option Char × PState)
  | esc, st, [] => ([], (esc, st))
  | some e, st, c :: rest =>
    if e = '\\' ∧ c = '\n' then
      collectLine (some e) st rest
    else
      collectLine none
        { st with out := (if e = '$' ∧ c ≠ '$' then st.out ++ ['$'] else st.out) ++ [c] } rest
  | none, st, c :: rest =>
    if c = '\\' ∨ c = '$' then
      collectLine (some c) st rest
    else if c = ' ' ∨ c = '\n' then
      if c = '\n' then
        (((flush st).targets, (flush st).deps) :: (collectLine none initState rest).1,
          (collectLine none initState rest).2)
      else collectLine none (flush st) rest
    else if c = ':' then
      collectLine none { st with targets := st.targets ++ [st.out], out := [], in_deps := true } rest
    else
      collectLine none { st with out := st.out ++ [c] } rest

/-- Specification-level rule collection over all lines of a depfile. -/
def collectRules : PState → List (List Char) → List Rule
  | _, [] => []
  | st, line :: rest =>
    (collectLine none st (ensureNl line)).1 ++
      collectRules (collectLine none st (ensureNl line)).2.2 rest

/-- The ordered list of complete rules of a depfile. -/
def depfileRules (lines : List String) : List Rule :=
  collectRules initState (lines.map String.data)

/-- Specification of depfile.parse, after the words of the spec: the
dependency list of the first rule whose target base name matches the
expected target, or the empty list when no rule matches. -/
def specParse (lines : List String) (expectedTarget : String) : List String :=
  match (depfileRules lines).find? (fun r => hasMatchingTarget expectedTarget.data r.1) with
  | some r => r.2.map String.mk
  | none => []

end Depfile

namespace CompileShaders

/-! Task staleness check (Task.needsBuild).  A file system is a function
from path to optional modification time; none means the file is absent. -/

/-- Fold the timestamps of the given files with a combining function,
as the input and output loops of Task.needsBuild do: the outer none means
some file was absent (the loop returned early), the inner option is the
running accumulator (none while no timestamp was seen). -/
def foldTimes (fs : String → Option Int) (comb : Int → Int → Int) :
    Option Int → List String → Option (Option Int)
  | acc, [] => some acc
  | acc, f :: rest =>
    match fs f with
    | none => none
    | some t => foldTimes fs comb (some (match acc with | none => t | some a => comb a t)) rest

/-- Task.needsBuild: true when the force flag is set; true when an input
or output file is absent; true when no input or no output timestamp was
computed; otherwise true exactly when the newest input time, folded with
the newest tool time, is strictly later than the oldest output time. -/
def needsBuild (force : Bool) (newestTool : Int) (fs : String → Option Int)
    (inputs outputs : List String) : Bool :=
  if force then true
  else
    match foldTimes fs max none inputs with
    | none => true
    | some mostRecentInput =>
      match foldTimes fs min none outputs with
      | none => true
      | some oldestOutput =>
        match mostRecentInput, oldestOutput with
        | some a, some b => decide (max a newestTool > b)
        | _, _ => true

/-- Pure companion of the timestamp fold, on a list of already known
timestamps. -/
def foldOpt (comb : Int → Int → Int) : Option Int → List Int → Option Int
  | acc, [] => acc
  | acc, t :: ts => foldOpt comb (some (match acc with | none => t | some a => comb a t)) ts

/-- Timestamps of all files, or none when some file is absent
(specification-side companion of the loops above). -/
def allTimes (fs : String → Option Int) : List String → Option (List Int)
  | [] => some []
  | f :: rest =>
    match fs f with
    | none => none
    | some t => (allTimes fs rest).map (t :: ·)

/-- Newest modification time among the files: none when a file is absent
or the list is empty. -/
def newestTime (fs : String → Option Int) (files : List String) : Option Int :=
  match allTimes fs files with
  | none => none
  | some [] => none
  | some (t :: ts) => some (ts.foldl max t)

/-- Oldest modification time among the files: none when a file is absent
or the list is empty. -/
def oldestTime (fs : String → Option Int) (files : List String) : Option Int :=
  match allTimes fs files with
  | none => none
  | some [] => none
  | some (t :: ts) => some (ts.foldl min t)

/-! Task.build.  A command is its shell string (a character list); an
execution oracle maps a command to its process return code and its
combined stdout plus stderr text. -/

/-- Python str.isspace characters relevant to strip and split. -/
def pyIsSpace (c : Char) : Bool :=
  c = ' ' ∨ c = '\t' ∨ c = '\n' ∨ c = '\r' ∨ c = '\x0b' ∨ c = '\x0c'

/-- Python str.strip: drop whitespace from both ends. -/
def pyStrip (s : List Char) : List Char :=
  ((s.dropWhile pyIsSpace).reverse.dropWhile pyIsSpace).reverse

/-- Executable base name of a command line: basename of the text before
the first space (basename of command.split of a space at index zero). -/
def cmdName (cmd : List Char) : List Char :=
  Depfile.basename (cmd.takeWhile (fun c => c ≠ ' '))

/-- Reinterpret an integer as a signed 32 bit value (the ctypes.c_long
conversion of the process return code). -/
def toInt32 (n : Int) : Int := (n + 2 ^ 31) % 2 ^ 32 - 2 ^ 31

/-- Command loop of Task.build, carrying the accumulated output and the
name of the last command started: run the next command, append its
stripped output (preceded by a newline separator when both sides are
nonempty), and stop with the normalized exit code at the first nonzero
return code. -/
def buildLoop (exec : List Char → Int × List Char) :
    List (List Char) → List Char → List Char → Int × List Char × List Char
  | [], acc, name => (0, acc, name)
  | cmd :: rest, acc, _ =>
    let combined := pyStrip (exec cmd).2
    let acc2 := if combined.isEmpty then acc
                else if acc.isEmpty then combined
                else acc ++ '\n' :: combined
    if (exec cmd).1 ≠ 0 then (toInt32 (exec cmd).1, acc2, cmdName cmd)
    else buildLoop exec rest acc2 (cmdName cmd)

/-- Task.build: run the commands in order; result is the exit code, the
combined output and the base name of the last command started. -/
def build (exec : List Char → Int × List Char) (commands : List (List Char)) :
    Int × List Char × List Char :=
  buildLoop exec commands [] []

/-- Specification-side combined output, after the words of the spec as
amended: the stripped per-command outputs joined by a single newline,
empty outputs contributing nothing and no separator. -/
def specCombinedOutput (exec : List Char → Int × List Char) : List (List Char) → List Char
  | [] => []
  | cmd :: rest =>
    let t := pyStrip (exec cmd).2
    let restOut := specCombinedOutput exec rest
    if t.isEmpty then restOut
    else if restOut.isEmpty then t
    else t ++ '\n' :: restOut

/-- The commands Task.build actually starts: the longest prefix of
succeeding commands, plus the first failing command when there is one. -/
def executedCmds (exec : List Char → Int × List Char) : List (List Char) → List (List Char)
  | [] => []
  | cmd :: rest => if (exec cmd).1 = 0 then cmd :: executedCmds exec rest else [cmd]

/-- Joining of two output blocks with a newline separator, skipping empty
sides (the combined-output monoid of Task.build). -/
def joinOut (a b : List Char) : List Char :=
  if b.isEmpty then a else if a.isEmpty then b else a ++ '\n' :: b

/-- Example file system for concrete instances: one input file with
time 5 and one output file with time 3. -/
def exampleFs : String → Option Int :=
  fun s => if s = "in.slang" then some 5 else if s = "out.spv" then some 3 else none

/-- Example execution oracle for concrete instances: two silent-failure
free commands whose outputs are A and B. -/
def exampleExec : List Char → Int × List Char :=
  fun cmd => if cmd = "c1".data then (0, "A".data) else (0, "B".data)

/-- Example execution oracle with a failure: the command ok1 succeeds
with output A, everything else fails with code 5 and output boom. -/
def exampleExecFail : List Char → Int × List Char :=
  fun cmd => if cmd = "ok1".data then (0, "A".data) else (5, "boom".data)

/-! Sequential scheduler (runTasks with a single worker thread).  A task
is abstracted by the exit code its build produces. -/

/-- runTasks with one worker: check the terminate flag, stop if set;
dequeue the front task, stop if the queue is empty; build it; set the
terminate flag on a nonzero exit code; loop.  Returns the exit codes of
the tasks that were built, the final terminate flag, and the tasks left
in the queue. -/
def runTasksSeq (terminate : Bool) (tasks : List Int) : List Int × Bool × List Int :=
  if terminate then ([], terminate, tasks)
  else
    match tasks with
    | [] => ([], terminate, [])
    | t :: rest =>
      let r := runTasksSeq (if t ≠ 0 then true else terminate) rest
      (t :: r.1, r.2.1, r.2.2)
termination_by tasks

/-- Driver tail: exit status 1 when the terminate flag is set at the end,
otherwise 0. -/
def processExit (terminate : Bool) : Nat := if terminate then 1 else 0

/-! Shader variant annotation parser (parseShaderVariants). -/

/-- Python str.split with no argument: split on runs of whitespace,
dropping empty pieces; helper carrying the partial token. -/
def pysplitGo : List Char → List Char → List (List Char)
  | acc, [] => if acc.isEmpty then [] else [acc]
  | acc, c :: rest =>
    if pyIsSpace c then
      if acc.isEmpty then pysplitGo [] rest else acc :: pysplitGo [] rest
    else pysplitGo (acc ++ [c]) rest

/-- Python str.split with no argument. -/
def pysplit (s : List Char) : List (List Char) := pysplitGo [] s

/-- Index of the last occurrence of a character in a list, if any. -/
def lastIdxOf (c : Char) (s : List Char) : Option Nat :=
  (List.range s.length).foldl (fun acc i => if s.getD i ' ' = c then some i else acc) none

/-- Model of os.path.splitext for forward-slash paths: split off the
extension at the last dot of the final path component, unless every
character of that component before the dot is itself a dot. -/
def splitext (p : List Char) : List Char × List Char :=
  let start := match lastIdxOf '/' p with | none => 0 | some j => j + 1
  match lastIdxOf '.' p with
  | none => (p, [])
  | some d =>
    if start ≤ d ∧ ((p.drop start).take (d - start)).any (fun ch => ch != '.') then
      (p.take d, p.drop d)
    else (p, [])

/-- Append extra defines to the last variant of the result list
(the Python result with the extra parts added to its final element). -/
def addToLast (res : List (List (List Char))) (extra : List (List Char)) : List (List (List Char)) :=
  match res with
  | [] => []
  | [r] => [r ++ extra]
  | r :: rs => r :: addToLast rs extra

/-- The line starts a variant declaration. -/
def isVariantDecl (line : List Char) : Bool := "//!variant".data.isPrefixOf line

/-- The line continues the previous variant declaration. -/
def isVariantCont (line : List Char) : Bool := "//!>".data.isPrefixOf line

/-- The line is the end marker of the variant block. -/
def isEndVariants (line : List Char) : Bool := "//!end-variants".data.isPrefixOf line

/-- Line loop of parseShaderVariants: none signals a parse error (the
Python early return of the empty list); otherwise the collected variant
specs together with whether the end marker was found.  Each spec is a
list whose head is the variant name with shader type and whose tail is
its defines. -/
def variantLoop (inputType : List Char) :
    List (List Char) → List (List (List Char)) → Option (List (List (List Char)) × Bool)
  | [], result => some (result, false)
  | line :: rest, result =>
    if isVariantDecl line then
      match pysplit line with
      | [] => none
      | [_] => none
      | _ :: p1 :: defines =>
        if ¬ (splitext p1).2.isEmpty then
          variantLoop inputType rest (result ++ [p1 :: defines])
        else if inputType.isEmpty then none
        else variantLoop inputType rest (result ++ [((splitext p1).1 ++ inputType) :: defines])
    else if isVariantCont line then
      if result.isEmpty then none
      else
        match pysplit line with
        | _ :: e :: es => variantLoop inputType rest (addToLast result (e :: es))
        | _ => variantLoop inputType rest result
    else if isEndVariants line then
      some (result, true)
    else
      -- the warning branch of the Python loop prints but changes nothing
      variantLoop inputType rest result

/-- parseShaderVariants: inputWithType is the file base name without the
.slang suffix; fileLines are the lines of the file.  Returns the variant
specs, the single implicit variant when none were declared, or the empty
list on a parse error (including a missing end marker). -/
def parseShaderVariants (inputWithType : List Char) (fileLines : List (List Char)) :
    List (List (List Char)) :=
  match variantLoop (splitext inputWithType).2 fileLines [] with
  | none => []
  | some (result, endFound) =>
    if result.isEmpty then [[inputWithType]]
    else if ¬ endFound then []
    else result

/-- Driver dispatch for a .slang file: a parse error (empty variant list)
exits the whole run with code 2 before any task is created; otherwise the
variant specs are handed on for task creation. -/
def slangDispatch (inputWithType : List Char) (fileLines : List (List Char)) :
    Except Nat (List (List (List Char))) :=
  if (parseShaderVariants inputWithType fileLines).isEmpty then .error 2
  else .ok (parseShaderVariants inputWithType fileLines)

/-! Scheduler transition system: the shared terminate flag, the shared
task queue, and one status per worker thread. -/

/-- Status of a worker thread in its loop. -/
inductive WStatus where
  | checking
  | running (exitCode : Int)
  | done
deriving DecidableEq, Repr

/-- Shared state of the scheduler: the terminate flag, the task queue
(each task abstracted by its build exit code) and the workers. -/
structure SchedState where
  terminate : Bool
  queue : List Int
  workers : List WStatus
deriving DecidableEq, Repr

/-- Steps of the scheduler: the signal handler sets the terminate flag; a
worker at the top of its loop observes the flag set and exits, or
observes it clear and dequeues the front task, or exits on an empty
queue; a worker finishing a build sets the flag when the exit code is
nonzero and loops; a build raising an exception sets the flag and ends
the worker. -/
inductive SchedStep : SchedState → SchedState → Prop where
  | sigint (s : SchedState) :
      SchedStep s { s with terminate := true }
  | observeTerminate (s : SchedState) (i : Nat)
      (h : s.workers.get? i = some .checking) (ht : s.terminate = true) :
      SchedStep s { s with workers := s.workers.set i .done }
  | dequeue (s : SchedState) (i : Nat) (t : Int) (q : List Int)
      (h : s.workers.get? i = some .checking) (ht : s.terminate = false)
      (hq : s.queue = t :: q) :
      SchedStep s { terminate := s.terminate, queue := q, workers := s.workers.set i (.running t) }
  | queueEmpty (s : SchedState) (i : Nat)
      (h : s.workers.get? i = some .checking) (ht : s.terminate = false)
      (hq : s.queue = []) :
      SchedStep s { s with workers := s.workers.set i .done }
  | finish (s : SchedState) (i : Nat) (t : Int)
      (h : s.workers.get? i = some (.running t)) :
      SchedStep s { s with terminate := s.terminate || decide (t ≠ 0),
                           workers := s.workers.set i .checking }
  | buildException (s : SchedState) (i : Nat) (t : Int)
      (h : s.workers.get? i = some (.running t)) :
      SchedStep s { s with terminate := true, workers := s.workers.set i .done }

end CompileShaders

namespace CompileShaders

theorem foldTimes_eq_allTimes (fs : String → Option Int) (comb : Int → Int → Int) :
    ∀ (files : List String) (acc : Option Int),
      foldTimes fs comb acc files = (allTimes fs files).map (foldOpt comb acc) := by
  intro files
  induction files with
  | nil => intro acc; simp [foldTimes, allTimes, foldOpt]
  | cons f rest ih =>
    intro acc
    simp only [foldTimes, allTimes]
    cases fs f with
    | none => rfl
    | some t =>
      dsimp only
      rw [ih]
      cases allTimes fs rest with
      | none => rfl
      | some ts => simp [foldOpt]

theorem foldOpt_some (comb : Int → Int → Int) :
    ∀ (ts : List Int) (a : Int), foldOpt comb (some a) ts = some (ts.foldl comb a) := by
  intro ts
  induction ts with
  | nil => intro a; rfl
  | cons t tr ih => intro a; simp [foldOpt, List.foldl, ih]

theorem allTimes_eq_none_iff (fs : String → Option Int) :
    ∀ files : List String, allTimes fs files = none ↔ ∃ f ∈ files, fs f = none := by
  intro files
  induction files with
  | nil => simp [allTimes]
  | cons f rest ih =>
    simp only [allTimes]
    cases h : fs f with
    | none =>
      dsimp only
      exact ⟨fun _ => ⟨f, List.mem_cons_self f rest, h⟩, fun _ => rfl⟩
    | some t =>
      dsimp only
      cases hr : allTimes fs rest with
      | none =>
        obtain ⟨g, hg, hgn⟩ := ih.mp hr
        exact ⟨fun _ => ⟨g, List.mem_cons_of_mem f hg, hgn⟩, fun _ => rfl⟩
      | some ts =>
        constructor
        · intro hc; exact absurd hc (by simp)
        · rintro ⟨g, hg, hgn⟩
          rcases List.mem_cons.mp hg with hgf | hgr
          · rw [hgf] at hgn; rw [h] at hgn; exact Option.noConfusion hgn
          · exact absurd (ih.mpr ⟨g, hgr, hgn⟩) (by simp [hr])

theorem allTimes_eq_some_nil (fs : String → Option Int) :
    ∀ files : List String, allTimes fs files = some [] → files = [] := by
  intro files
  cases files with
  | nil => intro _; rfl
  | cons f rest =>
    intro h
    exfalso
    simp only [allTimes] at h
    cases hf : fs f <;> simp [hf] at h

/-- C1: Task.needsBuild returns true exactly when the force flag is set,
some input file is missing, some output file is missing, or the input
list is empty; otherwise exactly when the newest input time joined with
the newest tool time is strictly later than the oldest output time.  The
output list is assumed nonempty, as it is for every task the driver
constructs (artifact plus depfile). -/
theorem needsBuild_spec_iff (force : Bool) (newestTool : Int) (fs : String → Option Int)
    (inputs outputs : List String) (hout : outputs ≠ []) :
    needsBuild force newestTool fs inputs outputs = true ↔
      force = true ∨ (∃ i ∈ inputs, fs i = none) ∨ (∃ o ∈ outputs, fs o = none) ∨
      inputs = [] ∨
      (∃ a b, newestTime fs inputs = some a ∧ oldestTime fs outputs = some b ∧
        max a newestTool > b) := by
  unfold needsBuild
  cases force with
  | true => simp
  | false =>
    simp only [Bool.false_eq_true, if_false]
    rw [foldTimes_eq_allTimes, foldTimes_eq_allTimes]
    cases hin : allTimes fs inputs with
    | none =>
      have : ∃ i ∈ inputs, fs i = none := (allTimes_eq_none_iff fs inputs).mp hin
      simp [this]
    | some tsIn =>
      have hnoIn : ¬ ∃ i ∈ inputs, fs i = none := by
        intro hc
        rw [← allTimes_eq_none_iff fs inputs] at hc
        rw [hin] at hc; exact Option.noConfusion hc
      cases hout2 : allTimes fs outputs with
      | none =>
        have : ∃ o ∈ outputs, fs o = none := (allTimes_eq_none_iff fs outputs).mp hout2
        simp [this]
      | some tsOut =>
        have hnoOut : ¬ ∃ o ∈ outputs, fs o = none := by
          intro hc
          rw [← allTimes_eq_none_iff fs outputs] at hc
          rw [hout2] at hc; exact Option.noConfusion hc
        cases tsOut with
        | nil => exact absurd (allTimes_eq_some_nil fs outputs hout2) hout
        | cons tO tsO =>
          cases tsIn with
          | nil =>
            have hinNil : inputs = [] := allTimes_eq_some_nil fs inputs hin
            simp [foldOpt, hinNil]
          | cons tI tsI =>
            have hinNe : inputs ≠ [] := by
              intro hc
              rw [hc] at hin
              simp [allTimes] at hin
            simp only [Option.map_some', foldOpt, foldOpt_some]
            have hnew : newestTime fs inputs = some (tsI.foldl max tI) := by
              unfold newestTime; rw [hin]
            have hold : oldestTime fs outputs = some (tsO.foldl min tO) := by
              unfold oldestTime; rw [hout2]
            simp [hnew, hold, hnoIn, hnoOut, hinNe, decide_eq_true_iff]

/-- Witness for C1 at a concrete file system: one existing input of
time 5, one existing output of time 3, tool time 10, no force flag. -/
theorem needsBuild_spec_iff_witness :
    needsBuild false 10 exampleFs ["in.slang"] ["out.spv"] = true ↔
      false = true ∨ (∃ i ∈ ["in.slang"], exampleFs i = none) ∨
      (∃ o ∈ ["out.spv"], exampleFs o = none) ∨
      (["in.slang"] : List String) = [] ∨
      (∃ a b, newestTime exampleFs ["in.slang"] = some a ∧
        oldestTime exampleFs ["out.spv"] = some b ∧ max a 10 > b) :=
  needsBuild_spec_iff false 10 exampleFs ["in.slang"] ["out.spv"] (by simp)

end CompileShaders

namespace CompileShaders

theorem runTasksSeq_all_zero (pre : List Int) (hpre : ∀ t ∈ pre, t = 0) :
    ∀ (k : Int) (post : List Int), k ≠ 0 →
      runTasksSeq false (pre ++ k :: post) = (pre ++ [k], true, post) := by
  induction pre with
  | nil =>
    intro k post hk
    rw [runTasksSeq.eq_def]
    simp only [if_neg (by simp : ¬ (false = true)), List.nil_append]
    rw [runTasksSeq.eq_def]
    simp [hk, runTasksSeq.eq_def]
  | cons p ps ih =>
    intro k post hk
    have hp : p = 0 := hpre p (List.mem_cons_self p ps)
    have hps : ∀ t ∈ ps, t = 0 := fun t ht => hpre t (List.mem_cons_of_mem p ht)
    rw [runTasksSeq.eq_def]
    simp only [if_neg (by simp : ¬ (false = true)), List.cons_append]
    rw [hp]
    simp only [ne_eq, not_true_eq_false, if_false, reduceIte]
    rw [ih hps k post hk]

/-- C2: with a single worker, a queue in which every task before K and
after K succeeds and task K fails runs exactly the tasks up to and
including K, records the failure, leaves the tasks after K in the queue
undequeued, and makes the process exit status 1. -/
theorem runTasksSeq_failfast (pre : List Int) (k : Int) (post : List Int)
    (hpre : ∀ t ∈ pre, t = 0) (hk : k ≠ 0) (_hpost : ∀ t ∈ post, t = 0) :
    runTasksSeq false (pre ++ k :: post) = (pre ++ [k], true, post) ∧
    processExit (runTasksSeq false (pre ++ k :: post)).2.1 = 1 := by
  have h := runTasksSeq_all_zero pre hpre k post hk
  refine ⟨h, ?_⟩
  rw [h]
  rfl

/-- Witness for C2: four queued tasks of which the third fails. -/
theorem runTasksSeq_failfast_witness :
    runTasksSeq false ([0, 0] ++ 7 :: [0]) = ([0, 0] ++ [7], true, [0]) ∧
    processExit (runTasksSeq false ([0, 0] ++ 7 :: [0])).2.1 = 1 :=
  runTasksSeq_failfast [0, 0] 7 [0] (by decide) (by decide) (by decide)

/-- C9: the terminate flag is monotone along every sequence of scheduler
steps (once set, no worker, signal handler or driver step resets it), and
no step taken from a state with the flag set changes the queue, so a
worker observing the flag dequeues nothing further. -/
theorem terminate_monotone :
    (∀ s s2 : SchedState, Relation.ReflTransGen SchedStep s s2 →
      s.terminate = true → s2.terminate = true) ∧
    (∀ s s2 : SchedState, SchedStep s s2 → s.terminate = true → s2.queue = s.queue) := by
  have mono : ∀ s s2 : SchedState, SchedStep s s2 → s.terminate = true → s2.terminate = true := by
    intro s s2 hstep ht
    cases hstep <;> simp_all
  constructor
  · intro s s2 h
    induction h with
    | refl => exact id
    | tail _ hstep ih => intro ht; exact mono _ _ hstep (ih ht)
  · intro s s2 hstep ht
    cases hstep <;> simp_all

/-- Witness for C9: a one-worker state with the flag already set; the
worker observes the flag and exits, the flag stays set and the queue is
untouched. -/
theorem terminate_monotone_witness :
    (SchedState.mk true [5] [WStatus.done]).terminate = true ∧
    (SchedState.mk true [5] [WStatus.done]).queue = (SchedState.mk true [5] [WStatus.checking]).queue := by
  constructor
  · exact terminate_monotone.1 (SchedState.mk true [5] [WStatus.checking]) _
      (Relation.ReflTransGen.single (SchedStep.observeTerminate _ 0 rfl rfl)) rfl
  · exact terminate_monotone.2 (SchedState.mk true [5] [WStatus.checking]) _
      (SchedStep.observeTerminate _ 0 rfl rfl) rfl

end CompileShaders

namespace Depfile

/-- C10: an unescaped colon appends the pending token to the target list
even when the dependency section has already begun, so a dependency path
with an unescaped colon is split: parsing the rule with target t and
dependency text C:/x.h returns the single dependency /x.h, the leading C
having become an extra target. -/
theorem colon_appends_to_targets :
    (∀ (expected : Tok) (st : PState) (rest : List Char),
      stepLine expected none st (':' :: rest) =
        stepLine expected none
          { st with targets := st.targets ++ [st.out], out := [], in_deps := true } rest) ∧
    parse ["t: C:/x.h\n"] "t" = ["/x.h"] := by
  constructor
  · intro expected st rest; rfl
  · decide

end Depfile

namespace CompileShaders

theorem joinOut_nil_right (a : List Char) : joinOut a [] = a := by simp [joinOut]

theorem joinOut_nil_left (b : List Char) : joinOut [] b = b := by
  cases b <;> rfl

theorem joinOut_assoc (a b c : List Char) :
    joinOut a (joinOut b c) = joinOut (joinOut a b) c := by
  cases a <;> cases b <;> cases c <;> simp [joinOut, List.append_assoc]

theorem specCombinedOutput_cons (exec : List Char → Int × List Char)
    (cmd : List Char) (rest : List (List Char)) :
    specCombinedOutput exec (cmd :: rest) =
      joinOut (pyStrip (exec cmd).2) (specCombinedOutput exec rest) := by
  by_cases h1 : (pyStrip (exec cmd).2).isEmpty <;>
    by_cases h2 : (specCombinedOutput exec rest).isEmpty <;>
      simp_all [specCombinedOutput, joinOut, List.isEmpty_iff]

theorem buildLoop_output (exec : List Char → Int × List Char) :
    ∀ (cmds : List (List Char)) (acc name : List Char),
      (buildLoop exec cmds acc name).2.1 =
        joinOut acc (specCombinedOutput exec (executedCmds exec cmds)) := by
  intro cmds
  induction cmds with
  | nil =>
    intro acc name
    simp [buildLoop, executedCmds, specCombinedOutput, joinOut_nil_right]
  | cons cmd rest ih =>
    intro acc name
    by_cases hrc : (exec cmd).1 = 0
    · simp only [buildLoop, if_neg (by simp [hrc] : ¬ (exec cmd).1 ≠ 0)]
      rw [ih]
      simp only [executedCmds, if_pos hrc, specCombinedOutput_cons]
      show joinOut (joinOut acc (pyStrip (exec cmd).2)) _ = _
      exact (joinOut_assoc _ _ _).symm
    · simp only [buildLoop, if_pos hrc]
      simp only [executedCmds, if_neg hrc, specCombinedOutput_cons, specCombinedOutput,
        joinOut_nil_right]
      rfl

theorem buildLoop_exit_zero (exec : List Char → Int × List Char) :
    ∀ (cmds : List (List Char)) (acc name : List Char),
      (∀ c ∈ cmds, (exec c).1 = 0) → (buildLoop exec cmds acc name).1 = 0 := by
  intro cmds
  induction cmds with
  | nil => intro acc name _; rfl
  | cons cmd rest ih =>
    intro acc name h
    have hc : (exec cmd).1 = 0 := h cmd (List.mem_cons_self cmd rest)
    simp only [buildLoop, if_neg (by simp [hc] : ¬ (exec cmd).1 ≠ 0)]
    exact ih _ _ (fun c hcm => h c (List.mem_cons_of_mem cmd hcm))

theorem buildLoop_fail (exec : List Char → Int × List Char) (f : List Char)
    (hf : (exec f).1 ≠ 0) :
    ∀ (pre : List (List Char)), (∀ c ∈ pre, (exec c).1 = 0) →
      ∀ (post : List (List Char)) (acc name : List Char),
        buildLoop exec (pre ++ f :: post) acc name =
          (toInt32 (exec f).1, joinOut acc (specCombinedOutput exec (pre ++ [f])), cmdName f) := by
  intro pre
  induction pre with
  | nil =>
    intro _ post acc name
    simp only [List.nil_append, buildLoop, if_pos hf, specCombinedOutput_cons]
    rw [show specCombinedOutput exec ([] : List (List Char)) = [] from rfl, joinOut_nil_right]
    rfl
  | cons p ps ih =>
    intro hpre post acc name
    have hp : (exec p).1 = 0 := hpre p (List.mem_cons_self p ps)
    simp only [List.cons_append, buildLoop, if_neg (by simp [hp] : ¬ (exec p).1 ≠ 0),
      List.append_eq]
    rw [ih (fun c hc => hpre c (List.mem_cons_of_mem p hc)) post]
    simp only [specCombinedOutput_cons]
    show (_, joinOut (joinOut acc (pyStrip (exec p).2)) _, _) = _
    rw [joinOut_assoc]

/-- C5: Task.build runs the commands in order and stops at the first
command with a nonzero return code, returning that code reinterpreted as
a signed 32 bit value, the output accumulated over the commands actually
run, and the base name of the failing command executable; the commands
after the failing one do not influence the result (they are never run),
and when every command returns zero the exit code is 0. -/
theorem build_stops_at_first_failure :
    (∀ (exec : List Char → Int × List Char) (pre : List (List Char)) (f : List Char)
        (post : List (List Char)),
        (∀ c ∈ pre, (exec c).1 = 0) → (exec f).1 ≠ 0 →
        build exec (pre ++ f :: post) =
          (toInt32 (exec f).1, specCombinedOutput exec (pre ++ [f]), cmdName f)) ∧
    (∀ (exec : List Char → Int × List Char) (cmds : List (List Char)),
        (∀ c ∈ cmds, (exec c).1 = 0) → (build exec cmds).1 = 0) := by
  constructor
  · intro exec pre f post hpre hf
    unfold build
    rw [buildLoop_fail exec f hf pre hpre post, joinOut_nil_left]
  · intro exec cmds h
    exact buildLoop_exit_zero exec cmds [] [] h

/-- Witness for C5: the first command succeeds with output A, the second
fails with code 5 and output boom, and a third queued command is never
run; all-success exit code checked on the single succeeding command. -/
theorem build_stops_at_first_failure_witness :
    build exampleExecFail (["ok1".data] ++ "bad arg".data :: ["ok1".data]) =
      (toInt32 (exampleExecFail "bad arg".data).1,
        specCombinedOutput exampleExecFail (["ok1".data] ++ ["bad arg".data]),
        cmdName "bad arg".data) ∧
    (build exampleExecFail ["ok1".data]).1 = 0 :=
  ⟨build_stops_at_first_failure.1 exampleExecFail ["ok1".data] "bad arg".data ["ok1".data]
      (by decide) (by decide),
    build_stops_at_first_failure.2 exampleExecFail ["ok1".data] (by decide)⟩

/-- C6 counterexample: two successive commands with nonempty outputs A
and B produce the combined output A, newline, B — a single newline, not
an empty line, stands between the outputs of consecutive commands. -/
theorem build_output_blankline_cex :
    (build exampleExec ["c1".data, "c2".data]).2.1 = "A\nB".data ∧
    ("A\nB".data : List Char) ≠ "A\n\nB".data := by
  constructor
  · decide
  · decide

/-- C6 as amended: the combined output of Task.build is the stripped
per-command outputs of the commands actually run, joined by one newline
between consecutive nonempty outputs, empty outputs contributing nothing
and no separator. -/
theorem build_output_joined_single_newline :
    ∀ (exec : List Char → Int × List Char) (cmds : List (List Char)),
      (build exec cmds).2.1 = specCombinedOutput exec (executedCmds exec cmds) := by
  intro exec cmds
  unfold build
  rw [buildLoop_output]
  exact joinOut_nil_left _

end CompileShaders

namespace CompileShaders

theorem addToLast_ne_nil (res : List (List (List Char))) (x : List (List Char))
    (h : res ≠ []) : addToLast res x ≠ [] := by
  cases res with
  | nil => exact absurd rfl h
  | cons r rs => cases rs <;> simp [addToLast]

theorem isVariantCont_not_decl (l : List Char) (h : isVariantCont l = true) :
    isVariantDecl l = false := by
  unfold isVariantCont at h
  unfold isVariantDecl
  rw [List.isPrefixOf_iff_prefix] at h
  by_contra hc
  rw [Bool.not_eq_false, List.isPrefixOf_iff_prefix] at hc
  obtain ⟨t1, ht1⟩ := h
  obtain ⟨t2, ht2⟩ := hc
  have e12 := ht1.trans ht2.symm
  have e1 : ("//!>".data : List Char) = ['/', '/', '!', '>'] := rfl
  have e2 : ("//!variant".data : List Char) = ['/', '/', '!', 'v', 'a', 'r', 'i', 'a', 'n', 't'] := rfl
  rw [e1, e2] at e12
  simp at e12

theorem variantLoop_no_end (ty : List Char) :
    ∀ (lines : List (List Char)) (res : List (List (List Char))),
      (∀ l ∈ lines, isEndVariants l = false) →
      variantLoop ty lines res = none ∨
      ∃ res2, variantLoop ty lines res = some (res2, false) ∧
        (res ≠ [] → res2 ≠ []) ∧ ((∃ l ∈ lines, isVariantDecl l = true) → res2 ≠ []) := by
  intro lines
  induction lines with
  | nil =>
    intro res _
    right
    exact ⟨res, rfl, fun h => h, fun h => absurd h (by simp)⟩
  | cons line rest ih =>
    intro res hend
    have hendl : isEndVariants line = false := hend line (List.mem_cons_self _ _)
    have hendr : ∀ l ∈ rest, isEndVariants l = false :=
      fun l hl => hend l (List.mem_cons_of_mem _ hl)
    by_cases hd : isVariantDecl line = true
    · cases hps : pysplit line with
      | nil => left; simp [variantLoop, hd, hps]
      | cons p0 tl =>
        cases tl with
        | nil => left; simp [variantLoop, hd, hps]
        | cons p1 defs =>
          by_cases hvt : ((splitext p1).2).isEmpty
          · by_cases hit : ty.isEmpty
            · left; simp [variantLoop, hd, hps, hvt, hit]
            · have step : variantLoop ty (line :: rest) res =
                  variantLoop ty rest (res ++ [((splitext p1).1 ++ ty) :: defs]) := by
                simp [variantLoop, hd, hps, hvt, hit]
              rcases ih (res ++ [((splitext p1).1 ++ ty) :: defs]) hendr with
                hnone | ⟨res2, heq, hne, _⟩
              · left; rw [step]; exact hnone
              · right
                exact ⟨res2, step.trans heq, fun _ => hne (by simp), fun _ => hne (by simp)⟩
          · have step : variantLoop ty (line :: rest) res =
                variantLoop ty rest (res ++ [p1 :: defs]) := by
              simp [variantLoop, hd, hps, hvt]
            rcases ih (res ++ [p1 :: defs]) hendr with hnone | ⟨res2, heq, hne, _⟩
            · left; rw [step]; exact hnone
            · right
              exact ⟨res2, step.trans heq, fun _ => hne (by simp), fun _ => hne (by simp)⟩
    · by_cases hc : isVariantCont line = true
      · by_cases hre : res = []
        · left; simp [variantLoop, hd, hc, hre]
        · have hres2 : ∀ x, variantLoop ty rest x = none ∨
              ∃ res2, variantLoop ty rest x = some (res2, false) ∧
                (x ≠ [] → res2 ≠ []) ∧ ((∃ l ∈ rest, isVariantDecl l = true) → res2 ≠ []) :=
            fun x => ih x hendr
          cases hps : pysplit line with
          | nil =>
            have step : variantLoop ty (line :: rest) res = variantLoop ty rest res := by
              simp [variantLoop, hd, hc, hre, hps]
            rcases hres2 res with hnone | ⟨res2, heq, hne, _⟩
            · left; rw [step]; exact hnone
            · right
              exact ⟨res2, step.trans heq, fun _ => hne hre, fun _ => hne hre⟩
          | cons e0 tl =>
            cases tl with
            | nil =>
              have step : variantLoop ty (line :: rest) res = variantLoop ty rest res := by
                simp [variantLoop, hd, hc, hre, hps]
              rcases hres2 res with hnone | ⟨res2, heq, hne, _⟩
              · left; rw [step]; exact hnone
              · right
                exact ⟨res2, step.trans heq, fun _ => hne hre, fun _ => hne hre⟩
            | cons e1 es =>
              have step : variantLoop ty (line :: rest) res =
                  variantLoop ty rest (addToLast res (e1 :: es)) := by
                simp [variantLoop, hd, hc, hre, hps]
              rcases hres2 (addToLast res (e1 :: es)) with hnone | ⟨res2, heq, hne, _⟩
              · left; rw [step]; exact hnone
              · right
                refine ⟨res2, step.trans heq, ?_, ?_⟩
                · exact fun _ => hne (addToLast_ne_nil res (e1 :: es) hre)
                · exact fun _ => hne (addToLast_ne_nil res (e1 :: es) hre)
      · have step : variantLoop ty (line :: rest) res = variantLoop ty rest res := by
          simp [variantLoop, hd, hc, hendl]
        rcases ih res hendr with hnone | ⟨res2, heq, hne, hdecl⟩
        · left; rw [step]; exact hnone
        · right
          refine ⟨res2, step.trans heq, hne, ?_⟩
          rintro ⟨l, hl, hld⟩
          rcases List.mem_cons.mp hl with rfl | hlr
          · exact absurd hld hd
          · exact hdecl ⟨l, hlr, hld⟩

theorem variantLoop_no_markers (ty : List Char) :
    ∀ lines : List (List Char),
      (∀ l ∈ lines, isVariantDecl l = false ∧ isVariantCont l = false) →
      ∃ b, variantLoop ty lines [] = some ([], b) := by
  intro lines
  induction lines with
  | nil => exact fun _ => ⟨false, rfl⟩
  | cons line rest ih =>
    intro h
    have hd := (h line (List.mem_cons_self _ _)).1
    have hc := (h line (List.mem_cons_self _ _)).2
    by_cases he : isEndVariants line = true
    · exact ⟨true, by simp [variantLoop, hd, hc, he]⟩
    · obtain ⟨b, hb⟩ := ih (fun l hl => h l (List.mem_cons_of_mem _ hl))
      refine ⟨b, ?_⟩
      rw [show variantLoop ty (line :: rest) [] = variantLoop ty rest [] from by
        simp [variantLoop, hd, hc, he]]
      exact hb

theorem variantLoop_cont_first (ty : List Char) (c : List Char)
    (hc : isVariantCont c = true) :
    ∀ pre : List (List Char),
      (∀ l ∈ pre, isVariantDecl l = false ∧ isEndVariants l = false) →
      ∀ post : List (List Char), variantLoop ty (pre ++ c :: post) [] = none := by
  intro pre
  induction pre with
  | nil =>
    intro _ post
    have hd := isVariantCont_not_decl c hc
    simp [variantLoop, hd, hc]
  | cons p ps ih =>
    intro h post
    have hpd := (h p (List.mem_cons_self _ _)).1
    have hpe := (h p (List.mem_cons_self _ _)).2
    by_cases hpc : isVariantCont p = true
    · simp [variantLoop, hpd, hpc]
    · rw [List.cons_append]
      rw [show variantLoop ty (p :: (ps ++ c :: post)) [] =
          variantLoop ty (ps ++ c :: post) [] from by simp [variantLoop, hpd, hpc, hpe]]
      exact ih (fun l hl => h l (List.mem_cons_of_mem _ hl)) post

/-- C7: a file with a variant declaration but no end marker line, and a
file with a continuation line before any declaration, both make the
variant parser return the empty list, and the driver then exits the run
with code 2 before any task is created. -/
theorem variant_parse_errors_exit_code_2 :
    (∀ (inputWithType : List Char) (lines : List (List Char)),
        (∃ l ∈ lines, isVariantDecl l = true) →
        (∀ l ∈ lines, isEndVariants l = false) →
        slangDispatch inputWithType lines = .error 2) ∧
    (∀ (inputWithType : List Char) (pre : List (List Char)) (c : List Char)
        (post : List (List Char)),
        isVariantCont c = true →
        (∀ l ∈ pre, isVariantDecl l = false ∧ isEndVariants l = false) →
        slangDispatch inputWithType (pre ++ c :: post) = .error 2) := by
  constructor
  · intro ity lines hdecl hend
    have hparse : parseShaderVariants ity lines = [] := by
      unfold parseShaderVariants
      rcases variantLoop_no_end (splitext ity).2 lines [] hend with hnone | ⟨res2, heq, _, hd2⟩
      · rw [hnone]
      · rw [heq]
        have hne : res2 ≠ [] := hd2 hdecl
        simp [List.isEmpty_iff, hne]
    unfold slangDispatch
    rw [hparse]
    rfl
  · intro ity pre c post hc hpre
    have hparse : parseShaderVariants ity (pre ++ c :: post) = [] := by
      unfold parseShaderVariants
      rw [variantLoop_cont_first (splitext ity).2 c hc pre hpre post]
    unfold slangDispatch
    rw [hparse]
    rfl

/-- Witness for C7: a single declaration with no end marker, and a lone
continuation line, each abort with exit code 2. -/
theorem variant_parse_errors_exit_code_2_witness :
    slangDispatch "my_shader".data [("//!variant a.comp X\n").data] = .error 2 ∧
    slangDispatch "my_shader".data ([] ++ ("//!> X\n").data :: []) = .error 2 :=
  ⟨variant_parse_errors_exit_code_2.1 "my_shader".data [("//!variant a.comp X\n").data]
      (by decide) (by decide),
    variant_parse_errors_exit_code_2.2 "my_shader".data [] ("//!> X\n").data []
      (by decide) (by decide)⟩

/-- C8 counterexample: a file whose only line is a lone continuation
marker contains zero variant declarations, yet the parser returns the
empty list (a parse error), not the single implicit variant spec. -/
theorem implicit_variant_cex :
    (∀ l ∈ [("//!> X\n").data], isVariantDecl l = false) ∧
    parseShaderVariants "my_shader".data [("//!> X\n").data] = [] ∧
    ([] : List (List (List Char))) ≠ [["my_shader".data]] := by
  refine ⟨by decide, by decide, by decide⟩

/-- C8 as amended: a file with zero variant declaration lines and zero
continuation lines yields exactly the single implicit variant spec named
after the file itself, with no defines. -/
theorem implicit_variant_when_no_marker_lines :
    ∀ (inputWithType : List Char) (lines : List (List Char)),
      (∀ l ∈ lines, isVariantDecl l = false ∧ isVariantCont l = false) →
      parseShaderVariants inputWithType lines = [[inputWithType]] := by
  intro ity lines h
  unfold parseShaderVariants
  obtain ⟨b, hb⟩ := variantLoop_no_markers (splitext ity).2 lines h
  rw [hb]
  rfl

/-- Witness for C8 as amended: a file with one ordinary comment line
yields the implicit variant spec. -/
theorem implicit_variant_when_no_marker_lines_witness :
    parseShaderVariants "my_shader".data [("// plain comment\n").data] =
      [["my_shader".data]] :=
  implicit_variant_when_no_marker_lines "my_shader".data [("// plain comment\n").data]
    (by decide)

end CompileShaders

namespace Depfile

theorem stepLine_append (expected : Tok) (ds : List Char) :
    ∀ (cs : List Char) (esc : Option Char) (st : PState),
      stepLine expected esc st (cs ++ ds) =
        match stepLine expected esc st cs with
        | .error d => .error d
        | .ok r => stepLine expected r.1 r.2 ds := by
  intro cs
  induction cs with
  | nil => intro esc st; simp [stepLine]
  | cons c cs ih =>
    intro esc st
    cases esc with
    | some e =>
      simp only [List.cons_append, stepLine]
      split
      · exact ih _ _
      · exact ih _ _
    | none =>
      simp only [List.cons_append, stepLine]
      split
      · exact ih _ _
      · split
        · split
          · split
            · rfl
            · exact ih _ _
          · exact ih _ _
        · split
          · exact ih _ _
          · exact ih _ _

theorem stepLine_eq_collectLine (expected : Tok) :
    ∀ (cs : List Char) (esc : Option Char) (st : PState),
      stepLine expected esc st cs =
        match (collectLine esc st cs).1.find? (fun r => hasMatchingTarget expected r.1) with
        | some r => Except.error r.2
        | none => Except.ok (collectLine esc st cs).2 := by
  intro cs
  induction cs with
  | nil => intro esc st; simp [stepLine, collectLine]
  | cons c cs ih =>
    intro esc st
    cases esc with
    | some e =>
      simp only [stepLine, collectLine]
      split
      · exact ih _ _
      · exact ih _ _
    | none =>
      simp only [stepLine, collectLine]
      split
      · exact ih _ _
      · split
        · split
          · dsimp only
            split
            · rename_i h4
              rw [@List.find?_cons_of_pos Rule (fun r => hasMatchingTarget expected r.1)
                (((flush st).targets, (flush st).deps)) ((collectLine none initState cs).1) h4]
            · rename_i h4
              rw [@List.find?_cons_of_neg Rule (fun r => hasMatchingTarget expected r.1)
                (((flush st).targets, (flush st).deps)) ((collectLine none initState cs).1)
                (by simp [h4])]
              exact ih _ _
          · exact ih _ _
        · split
          · exact ih _ _
          · exact ih _ _

theorem parseLines_eq_find (expected : Tok) :
    ∀ (lines : List (List Char)) (st : PState),
      parseLines expected st lines =
        match (collectRules st lines).find? (fun r => hasMatchingTarget expected r.1) with
        | some r => r.2
        | none => [] := by
  intro lines
  induction lines with
  | nil => intro st; simp [parseLines, collectRules]
  | cons line rest ih =>
    intro st
    simp only [parseLines, collectRules]
    rw [stepLine_eq_collectLine]
    rw [List.find?_append]
    cases hf : (collectLine none st (ensureNl line)).1.find?
        (fun r => hasMatchingTarget expected r.1) with
    | some r => simp [hf]
    | none => simp [hf, ih]

end Depfile

namespace Depfile

theorem ensureNl_concat_nl (cs : List Char) :
    ensureNl (cs ++ ['\\', '\n']) = cs ++ ['\\', '\n'] := by
  unfold ensureNl
  rw [show cs ++ ['\\', '\n'] = (cs ++ ['\\']) ++ ['\n'] by simp]
  rw [List.getLast?_concat]
  simp

theorem ensureNl_append (cs ds : List Char) (h : ds ≠ []) :
    ensureNl (cs ++ ds) = cs ++ ensureNl ds := by
  unfold ensureNl
  rw [List.getLast?_append_of_ne_nil cs h]
  split
  · rfl
  · rw [List.append_assoc]

/-- C3: depfile.parse returns the ordered dependency list of the first
rule whose target base name equals the expected target base name (the
scan stops at that rule, so later rules cannot affect the result), and
the empty list when no rule matches; in particular the rule
a.spv: a.slang b.slangh parses to exactly those two dependencies for
target a.spv and to the empty list for target z.spv. -/
theorem parse_first_matching_rule :
    (∀ (lines : List String) (expectedTarget : String),
        parse lines expectedTarget = specParse lines expectedTarget) ∧
    parse ["a.spv: a.slang b.slangh\n"] "a.spv" = ["a.slang", "b.slangh"] ∧
    parse ["a.spv: a.slang b.slangh\n"] "z.spv" = [] := by
  refine ⟨?_, by decide, by decide⟩
  intro lines tgt
  unfold parse specParse depfileRules
  rw [parseLines_eq_find]
  cases hf : (collectRules initState (lines.map String.data)).find?
      (fun r => hasMatchingTarget tgt.data r.1) with
  | some r => simp [hf]
  | none => simp [hf]

/-- C4: the depfile parser un-escapes tokens: an escaped space yields a
single path containing a space, a doubled dollar yields one literal
dollar, and a trailing backslash-newline is elided, so a rule continued
onto the next line parses exactly like the unbroken rule (the elided
newline is no token separator); the general statement holds for every
line prefix scanned without a pending escape. -/
theorem parse_unescaping :
    (parse ["t: foo\\ bar.h\n"] "t" = ["foo bar.h"]) ∧
    (parse ["t: a$$b\n"] "t" = ["a$b"]) ∧
    (∀ (cs ds : List Char) (tgt : String) (st1 : PState),
        ds ≠ [] →
        stepLine tgt.data none initState cs = .ok (none, st1) →
        parse [String.mk (cs ++ ['\\', '\n']), String.mk ds] tgt =
          parse [String.mk (cs ++ ds)] tgt) := by
  refine ⟨by decide, by decide, ?_⟩
  intro cs ds tgt st1 hds hcs
  show (parseLines tgt.data initState [cs ++ ['\\', '\n'], ds]).map String.mk =
      (parseLines tgt.data initState [cs ++ ds]).map String.mk
  have L : parseLines tgt.data initState [cs ++ ['\\', '\n'], ds] =
      match stepLine tgt.data none st1 (ensureNl ds) with
      | .error deps => deps
      | .ok _ => [] := by
    simp only [parseLines, ensureNl_concat_nl]
    rw [stepLine_append tgt.data ['\\', '\n'] cs none initState, hcs]
    dsimp only
    rw [show stepLine tgt.data none st1 ['\\', '\n'] = Except.ok (some '\\', st1) from rfl]
  have R : parseLines tgt.data initState [cs ++ ds] =
      match stepLine tgt.data none st1 (ensureNl ds) with
      | .error deps => deps
      | .ok _ => [] := by
    simp only [parseLines, ensureNl_append cs ds hds]
    rw [stepLine_append tgt.data (ensureNl ds) cs none initState, hcs]
  rw [L, R]

/-- Witness for C4: the rule t: a.h b.h split by a backslash-newline
after a.h parses like the unbroken rule. -/
theorem parse_unescaping_witness :
    parse [String.mk ("t: a.h ".data ++ ['\\', '\n']), String.mk "b.h\n".data] "t" =
      parse [String.mk ("t: a.h ".data ++ "b.h\n".data)] "t" :=
  parse_unescaping.2.2 "t: a.h ".data "b.h\n".data "t"
    ⟨["t".data], ["a.h".data], true, []⟩ (by decide) (by rfl)

end Depfile
